import Mathlib

/-!
# A shallow embedding of the vectoria storage core

This file embeds the storage core of the vectoria vector database
(`src/db.rs`, `src/ext/io.rs`, `src/vio/{dbheader,vector,layer}.rs`,
`src/ds/graph.rs`) and proves or refutes the specification's claims about it.

Modelling conventions:
* Bytes are `Nat` values below 256; a random-access stream is a byte list and
  a cursor, with `std::io::Cursor<Vec<u8>>` semantics (reads fail past the
  end, writes overwrite/extend and zero-pad a gap).
* `f32` values are represented by their IEEE-754 bit pattern, a `Nat` below
  2^32; the positive-infinity pattern is `INF_BITS`.  The source only ever
  compares floats against `f32::INFINITY`, so bit patterns capture it exactly.
* `u32`/`u64` arithmetic that can wrap in the source is made explicit
  (`% 2 ^ 32`, or the `2 ^ 64 - 1` wrap of `count() - 1` on an empty store),
  following release-build wrapping semantics; a debug build would panic at
  the very same spots, and either way the claimed behaviour does not happen.
* Loops of the source become fuel-indexed recursions; exhausted fuel is a
  distinguished outcome (`.fuelOut` / `.noFuel`) that no theorem ever relies
  on.  Rust panics (corrupted-database panic, slice-index panics) are
  likewise distinguished outcomes.
-/

deriving instance DecidableEq for Except

set_option maxRecDepth 16384

namespace Vectoria

/-- Big-endian encoding of `v` into `n` bytes, as `byteorder::BigEndian`
writes an unsigned integer. -/
def encodeBE : Nat → Nat → List Nat
  | 0, _ => []
  | n + 1, v => encodeBE n (v / 256) ++ [v % 256]

/-- Big-endian decoding of a byte list, as `byteorder::BigEndian` reads an
unsigned integer. -/
def decodeBE (bs : List Nat) : Nat := bs.foldl (fun acc b => acc * 256 + b) 0

/-- A random-access stream: the contents and cursor of a
`Cursor<Vec<u8>>`. -/
structure Strm where
  data : List Nat
  pos : Nat
deriving DecidableEq

/-- The bytes `[p, p+n)` of `d`, or `none` when fewer than `n` bytes remain
(`read_exact` fails with `UnexpectedEof`). -/
def readBytes (d : List Nat) (p n : Nat) : Option (List Nat) :=
  if p + n ≤ d.length then some ((d.drop p).take n) else none

/-- Overwrite `d` at position `p` with `bs`, zero-padding any gap and
extending the contents, as `Cursor<Vec<u8>>::write` does. -/
def writeBytes (d : List Nat) (p : Nat) (bs : List Nat) : List Nat :=
  d.take p ++ List.replicate (p - d.length) 0 ++ bs ++ d.drop (p + bs.length)

/-- A write at the cursor; the cursor advances past the written bytes. -/
def Strm.write (s : Strm) (bs : List Nat) : Strm :=
  ⟨writeBytes s.data s.pos bs, s.pos + bs.length⟩

/-- Bit pattern of `f32::INFINITY`. -/
def INF_BITS : Nat := 0x7F800000

/-- Whether an `f32` bit pattern denotes a NaN (exponent all ones, nonzero
mantissa, either sign). -/
def f32IsNan (bits : Nat) : Bool := decide (bits % 2 ^ 31 > 0x7F800000)

/-- The comparison `x < f32::INFINITY` on a bit pattern: true for every
non-NaN value other than positive infinity itself. -/
def f32LtInf (bits : Nat) : Bool := !f32IsNan bits && decide (bits ≠ INF_BITS)

/-- Error type of `vio::Error`: end-of-data sentinel or I/O failure. -/
inductive VErr where
  | eof
  | io
deriving DecidableEq

/-- `vio::vector::read`, decoding `k` big-endian `f32` components of `d`
starting at byte `p`: a component equal to `f32::INFINITY` aborts with
`Error::EOF`; a short read aborts with `Error::IO`.  (The `BufReader` the
source wraps around the stream only affects how far the underlying cursor
advances, which no caller depends on, so it is not modelled.) -/
def vectorReadGo (d : List Nat) : Nat → Nat → Except VErr (List Nat)
  | _, 0 => .ok []
  | p, k + 1 =>
    match readBytes d p 4 with
    | none => .error .io
    | some bs =>
      if decodeBE bs = INF_BITS then .error .eof
      else
        match vectorReadGo d (p + 4) k with
        | .ok rest => .ok (decodeBE bs :: rest)
        | .error e => .error e

/-- `vio::vector::write`: each component written as 4 big-endian bytes. -/
def vectorWriteBytes (v : List Nat) : List Nat := (v.map (encodeBE 4)).flatten

/-- ASCII bytes of the product tag `"vectoriadb;version"` (18 bytes). -/
def PRODUCT_BYTES : List Nat :=
  [118, 101, 99, 116, 111, 114, 105, 97, 100, 98, 59, 118, 101, 114, 115, 105, 111, 110]

/-- `vio::dbheader::DbHeader`. -/
structure DbHeader where
  version : Nat
  dimSize : Nat
  dataSection : Nat
deriving DecidableEq

/-- `DbHeader::new`: version 1 and
`data_section = len(tag) + sizeof(u8) + sizeof(u32) + sizeof(u64) = 31`. -/
def DbHeader.new (dimSize : Nat) : DbHeader := ⟨1, dimSize, 18 + 1 + 4 + 8⟩

/-- ASCII decimal digits of `n` (for `n < 1000`, which covers every `u8`),
exactly what `write!("{}", n)` emits for an unsigned integer. -/
def decimalDigits (n : Nat) : List Nat :=
  if n < 10 then [48 + n]
  else if n < 100 then [48 + n / 10, 48 + n % 10]
  else [48 + n / 100, 48 + n / 10 % 10, 48 + n % 10]

/-- `DbHeader::write`: `write!(fd, "{0}{1}", PRODUCT, self.version)` emits the
tag followed by the version **as ASCII decimal text** (not as a raw byte),
then the `u64` `data_section` and the `u32` `dim_size` follow big-endian. -/
def DbHeader.write (h : DbHeader) (s : Strm) : Strm :=
  Strm.write s
    (PRODUCT_BYTES ++ decimalDigits h.version ++ encodeBE 8 h.dataSection ++ encodeBE 4 h.dimSize)

/-- Error type of `vio::dbheader::Error`. -/
inductive HdrErr where
  | io
  | parse
deriving DecidableEq

/-- `vio::dbheader::read`: an 18-byte tag (a `Parse` error on a mismatch, and
also on undecodable bytes, which necessarily mismatch the ASCII tag), then
`read_u8`, `read_u64::<BigEndian>`, `read_u32::<BigEndian>`. -/
def dbheaderRead (s : Strm) : Except HdrErr (DbHeader × Strm) :=
  match readBytes s.data s.pos 18 with
  | none => .error .io
  | some tag =>
    if tag ≠ PRODUCT_BYTES then .error .parse
    else
      match readBytes s.data (s.pos + 18) 1 with
      | none => .error .io
      | some vb =>
        match readBytes s.data (s.pos + 19) 8 with
        | none => .error .io
        | some dsb =>
          match readBytes s.data (s.pos + 27) 4 with
          | none => .error .io
          | some dimb => .ok (⟨decodeBE vb, decodeBE dimb, decodeBE dsb⟩, ⟨s.data, s.pos + 31⟩)

/-- `ds::graph::NdGraph`: adjacency-matrix cells hold `f32` bit patterns,
`INF_BITS` meaning "no edge". -/
structure NdGraph where
  len : Nat
  capacity : Nat
  adjacent_matrix : List (List Nat)
deriving DecidableEq

/-- `NdGraph::new`. -/
def NdGraph.new : NdGraph := ⟨0, 0, []⟩

/-- `NdGraph::with_capacity`: row `r` gets `r + 1` cells (`(0..=row)`). -/
def NdGraph.with_capacity (capacity : Nat) : NdGraph :=
  ⟨0, capacity, (List.range capacity).map (fun row => List.replicate (row + 1) INF_BITS)⟩

/-- `adj_list.iter().flat_map(|(a, b, _)| [a, b]).max().unwrap_or(0)`. -/
def adjListMax (l : List (Nat × Nat × Nat)) : Nat :=
  l.foldr (fun e acc => max (max e.1 e.2.1) acc) 0

/-- `NdGraph::from_adj_list`: `len` is set to the **maximum referenced id**
(`max`, not `max + 1`), rows `0..len` are built, and each cell takes the
distance of the first matching edge, `INF_BITS` when none matches. -/
def NdGraph.from_adj_list (adj_list : List (Nat × Nat × Nat)) : NdGraph :=
  let len := adjListMax adj_list
  ⟨len, len,
    (List.range len).map (fun row =>
      (List.range (row + 1)).map (fun col =>
        match adj_list.find? (fun e => (e.1 == row && e.2.1 == col) || (e.1 == col && e.2.1 == row)) with
        | none => INF_BITS
        | some e => e.2.2))⟩

/-- Outcome of `NdGraph::connect`: success, the `ExceedBoundary` error, or a
Rust panic from indexing a row past its actual length. -/
inductive ConnectRes where
  | ok (g : NdGraph)
  | exceedBoundary
  | panicked
deriving DecidableEq

/-- `NdGraph::connect`: bounds-checked against `len`, then assigns the
canonical `(max, min)` cell `adjacent_matrix[a][b] = distance`; an index past
the row's real length is a Rust panic, modelled as `.panicked`. -/
def NdGraph.connect (g : NdGraph) (a b : Nat) (distance : Nat) : ConnectRes :=
  if a ≥ g.len ∨ b ≥ g.len then .exceedBoundary
  else
    let p := if a > b then (a, b) else (b, a)
    match g.adjacent_matrix.get? p.1 with
    | none => .panicked
    | some row =>
      if p.2 < row.length then
        .ok ⟨g.len, g.capacity, g.adjacent_matrix.set p.1 (row.set p.2 distance)⟩
      else .panicked

/-- Outcome of `NdGraph::get_vertice`. -/
inductive VertRes where
  | ok (d : Option Nat)
  | exceedBoundary
  | panicked
deriving DecidableEq

/-- `NdGraph::get_vertice`: bounds-checked against `len`, reads the canonical
`(max, min)` cell, and maps the infinity sentinel to "no edge"
(`dis < f32::INFINITY` on the stored bit pattern). -/
def NdGraph.get_vertice (g : NdGraph) (a b : Nat) : VertRes :=
  if a ≥ g.len ∨ b ≥ g.len then .exceedBoundary
  else
    let p := if a > b then (a, b) else (b, a)
    match g.adjacent_matrix.get? p.1 with
    | none => .panicked
    | some row =>
      match row.get? p.2 with
      | none => .panicked
      | some dis => .ok (if f32LtInf dis then some dis else none)

/-- `NdGraph::push_many` (the spec's `grow`): when capacity is short it
appends `lacking + capacity` new rows to the existing matrix, the batch's row
`r` getting `r` cells (`(0..row)`, one fewer than the triangular `r + 1`),
bumps `capacity` by `lacking`, then adds `count` to `len` and returns
`len - 1` (`u32` arithmetic; the subtraction is only reached with `len ≥ 1`
in every use here). -/
def NdGraph.push_many (g : NdGraph) (count : Nat) : NdGraph × Nat :=
  let g1 :=
    if g.capacity < g.len + count then
      let lacking := g.len + count - g.capacity
      (⟨g.len, g.capacity + lacking,
        g.adjacent_matrix ++
          (List.range (lacking + g.capacity)).map (fun row => List.replicate row INF_BITS)⟩ : NdGraph)
    else g
  (⟨g1.len + count, g1.capacity, g1.adjacent_matrix⟩, g1.len + count - 1)

/-- Error type of `ext::io` operations. -/
inductive MvErr where
  | io
  | noFuel
deriving DecidableEq

/-- One loop iteration of `ext::io::cut_and_paste_backward` per fuel unit:
read `min(remaining, buffer_len)` bytes at the cursor, seek back by `offset`
**from the post-read position**, write the chunk there, repeat on the
remaining length.  A seek to a negative position is an I/O error. -/
def cutAndPasteBackwardGo (offset bufferLen : Nat) : Nat → Strm → Nat → Except MvErr Strm
  | 0, _, _ => .error .noFuel
  | fuel + 1, s, remaining =>
    let rd := if remaining > bufferLen then bufferLen else remaining
    match readBytes s.data s.pos rd with
    | none => .error .io
    | some buf =>
      if s.pos + rd < offset then .error .io
      else
        let s1 := Strm.write ⟨s.data, s.pos + rd - offset⟩ buf
        if remaining - rd = 0 then .ok s1
        else cutAndPasteBackwardGo offset bufferLen fuel s1 (remaining - rd)

/-- One loop iteration of `ext::io::cut_and_paste_forward` per fuel unit.
The guard computes `seek(Current(remaining)) - buffer_size` in wrapping `u64`
arithmetic (a debug build would instead panic when it underflows); the chunk
is then read either from `begin` (length `remaining`) or `buffer_size` bytes
back from the end of the unprocessed span, written `offset` bytes past the
post-read cursor, and the cursor stepped back by `offset + buffer_size` for
the next round. -/
def cutAndPasteForwardGo (begin offset bufferSize : Nat) : Nat → Strm → Nat → Except MvErr Strm
  | 0, _, _ => .error .noFuel
  | fuel + 1, s, remaining =>
    let p1 := s.pos + remaining
    if (p1 + (2 ^ 64 - bufferSize % 2 ^ 64)) % 2 ^ 64 < begin then
      match readBytes s.data begin remaining with
      | none => .error .io
      | some buf =>
        let s1 := Strm.write ⟨s.data, begin + remaining + offset⟩ buf
        if remaining - remaining = 0 then .ok s1
        else if s1.pos < offset + bufferSize then .error .io
        else cutAndPasteForwardGo begin offset bufferSize fuel
          ⟨s1.data, s1.pos - (offset + bufferSize)⟩ (remaining - remaining)
    else
      if p1 < bufferSize then .error .io
      else
        match readBytes s.data (p1 - bufferSize) bufferSize with
        | none => .error .io
        | some buf =>
          let s1 := Strm.write ⟨s.data, p1 + offset⟩ buf
          if remaining - bufferSize = 0 then .ok s1
          else if s1.pos < offset + bufferSize then .error .io
          else cutAndPasteForwardGo begin offset bufferSize fuel
            ⟨s1.data, s1.pos - (offset + bufferSize)⟩ (remaining - bufferSize)

/-- `ext::io::MoveContent::move_content`: dispatch on the sign of `offset`.
The starting cursor of `s` is the `begin` position of the forward variant. -/
def moveContent (s : Strm) (contentLen : Nat) (offset : Int) (bufferSize fuel : Nat) :
    Except MvErr Strm :=
  if 0 ≤ offset then cutAndPasteForwardGo s.pos offset.toNat bufferSize fuel s contentLen
  else cutAndPasteBackwardGo (-offset).toNat bufferSize fuel s contentLen

/-- `VectorHandle::unit_size_bytes`: `dim_size * 4 + 4`. -/
def unitSize (dim : Nat) : Nat := 4 * dim + 4

/-- `VectorHandle::seek_count`: `(stream_length + 1 - data_section) / unit`
(the `+ 1` off-by-one is the source's). -/
def storeCount (dim ds : Nat) (d : List Nat) : Nat :=
  (d.length + 1 - ds) / unitSize dim

/-- Read the `u32` record id at byte offset `p` (`None` on a short read). -/
def readIdAt (d : List Nat) (p : Nat) : Option Nat := (readBytes d p 4).map decodeBE

/-- Outcome of `VectorHandle::seek_item`: the byte offset of the matching
record's id field (the cursor then sits 4 bytes past it), a miss, an I/O
error, the corrupted-database panic, or exhausted fuel. -/
inductive SeekRes where
  | found (recPos : Nat)
  | notFound
  | ioError
  | corrupt
  | fuelOut
deriving DecidableEq

/-- The loop of `VectorHandle::seek_item`: read the ids at indices `head` and
`tail`, return on a match, fail on `head = tail` without a match, panic when
`head_id > tail_id`, otherwise narrow whichever end by the value-guided
midpoint test `id < (head_id + tail_id) / 2` (`u32` addition, hence the
`% 2 ^ 32`). -/
def seekItemGo (d : List Nat) (unit ds id : Nat) : Nat → Nat → Nat → SeekRes
  | 0, _, _ => .fuelOut
  | fuel + 1, head, tail =>
    match readIdAt d (head * unit + ds) with
    | none => .ioError
    | some headId =>
      if headId = id then .found (head * unit + ds)
      else if head = tail then .notFound
      else
        match readIdAt d (tail * unit + ds) with
        | none => .ioError
        | some tailId =>
          if tailId = id then .found (tail * unit + ds)
          else if tailId < headId then .corrupt
          else if id < (headId + tailId) % 2 ^ 32 / 2 then
            seekItemGo d unit ds id fuel head ((tail - head) / 2 + head)
          else
            seekItemGo d unit ds id fuel ((tail - head) / 2 + head) tail

/-- `VectorHandle::seek_item`: `tail` starts at `count - 1`, a `u64`
subtraction that wraps to `2 ^ 64 - 1` on an empty store (a debug build would
panic right there). -/
def seek_item (dim ds : Nat) (d : List Nat) (id fuel : Nat) : SeekRes :=
  let count := storeCount dim ds d
  seekItemGo d (unitSize dim) ds id fuel 0 (if count = 0 then 2 ^ 64 - 1 else count - 1)

/-- Error type of `db::Error` (plus the fuel artifact). -/
inductive DbErr where
  | io
  | parse
  | dimension
  | corrupted
  | noFuel
deriving DecidableEq

/-- `VectorHandle::get`: resolve by `seek_item`, then decode the vector that
follows the id field; both a `vio` EOF and a `vio` I/O failure surface as
`Error::IO`. -/
def VectorHandle.get (dim ds : Nat) (d : List Nat) (id fuel : Nat) :
    Except DbErr (Option (List Nat)) :=
  match seek_item dim ds d id fuel with
  | .notFound => .ok none
  | .found recPos =>
    match vectorReadGo d (recPos + 4) dim with
    | .ok v => .ok (some v)
    | .error _ => .error .io
  | .ioError => .error .io
  | .corrupt => .error .corrupted
  | .fuelOut => .error .noFuel

/-- `VectorHandle::seek_last_id`: seek to `End(-unit)` (a failed seek yields
`None`), yield `None` when that lands before the data section, else read the
id there (`None` again on a short read). -/
def VectorHandle.seek_last_id (dim ds : Nat) (d : List Nat) : Option Nat :=
  let u := unitSize dim
  if d.length < u then none
  else if d.length - u < ds then none
  else readIdAt d (d.length - u)

/-- `VectorHandle::push`: reject a dimension mismatch, compute
`last_id + 1` (werapping `u32` increment) or `0`, and append
`[new_id][vector]` at end of file. -/
def VectorHandle.push (dim ds : Nat) (d : List Nat) (v : List Nat) :
    Except DbErr (Nat × List Nat) :=
  if v.length ≠ dim then .error .dimension
  else
    let newId :=
      match VectorHandle.seek_last_id dim ds d with
      | none => 0
      | some i => (i + 1) % 2 ^ 32
    .ok (newId, ((Strm.write ⟨d, d.length⟩ (encodeBE 4 newId)).write (vectorWriteBytes v)).data)

/-- `VectorHandle::remove`: resolve by `seek_item`, decode the vector (a
`vio` EOF is `Error::Parse` here), then seek to `found_pos - 4` and call
`move_content(available - pos - unit, -unit, min(4096, 10 * unit))`. -/
def VectorHandle.remove (dim ds : Nat) (d : List Nat) (id fuel : Nat) :
    Except DbErr (Option (List Nat) × List Nat) :=
  match seek_item dim ds d id fuel with
  | .notFound => .ok (none, d)
  | .found recPos =>
    match vectorReadGo d (recPos + 4) dim with
    | .error .eof => .error .parse
    | .error .io => .error .io
    | .ok v =>
      let available := d.length
      let offset := unitSize dim
      let pos := recPos - 4
      match moveContent ⟨d, pos⟩ (available - pos - offset) (-(offset : Int))
          (min 4096 (10 * offset)) fuel with
      | .ok s1 => .ok (some v, s1.data)
      | .error _ => .error .io
  | .ioError => .error .io
  | .corrupt => .error .corrupted
  | .fuelOut => .error .noFuel

/-- A sequence of `push` calls, returning the assigned ids and final file. -/
def pushAll (dim ds : Nat) (d : List Nat) : List (List Nat) → Except DbErr (List Nat × List Nat)
  | [] => .ok ([], d)
  | v :: vs =>
    match VectorHandle.push dim ds d v with
    | .error e => .error e
    | .ok (id, d1) =>
      match pushAll dim ds d1 vs with
      | .error e => .error e
      | .ok (ids, d2) => .ok (id :: ids, d2)

/-- The on-disk encoding of one record: `[id: u32][dim × f32]`. -/
def encRecord (r : Nat × List Nat) : List Nat := encodeBE 4 r.1 ++ vectorWriteBytes r.2

/-- A store file: the `ds`-byte prefix (header + layer section) followed by
the encoded records. -/
def fileOf (pre : List Nat) (recs : List (Nat × List Nat)) : List Nat :=
  pre ++ (recs.map encRecord).flatten

/-- The id `push` will assign next: `0` on an empty store, else the last
record's id plus one. -/
def nextId : List (Nat × List Nat) → Nat
  | [] => 0
  | [r] => r.1 + 1
  | _ :: rs => nextId rs

/-- Records with contiguous ids starting at `k`, for the scenario stores. -/
def enumRecs : Nat → List (List Nat) → List (Nat × List Nat)
  | _, [] => []
  | k, v :: vs => (k, v) :: enumRecs (k + 1) vs

/-- A well-formed vector store: a `ds`-byte prefix and fixed-width records
with strictly ascending `u32` ids (each still incrementable without wrap)
and in-range components. -/
structure WFStore (dim ds : Nat) (pre : List Nat) (recs : List (Nat × List Nat)) : Prop where
  pre_len : pre.length = ds
  rec_dim : ∀ r ∈ recs, r.2.length = dim
  comp_lt : ∀ r ∈ recs, ∀ c ∈ r.2, c < 2 ^ 32
  id_lt : ∀ r ∈ recs, r.1 + 1 < 2 ^ 32
  sorted : recs.Pairwise (fun r s => r.1 < s.1)

/-- The record ids of a store file in file-offset order. -/
def idsInFileOrder (dim ds : Nat) (d : List Nat) : List Nat :=
  (List.range (storeCount dim ds d)).map (fun k => decodeBE ((d.drop (k * unitSize dim + ds)).take 4))

/-- Whether a list of ids is strictly ascending. -/
def ascendingB : List Nat → Bool
  | [] => true
  | [_] => true
  | a :: b :: t => decide (a < b) && ascendingB (b :: t)

/-- The header bytes a freshly created dimension-1 database starts with
(`Database::new` writes `DbHeader::new(1)`); 31 bytes, so `ds = 31`. -/
def hdr1 : List Nat := (DbHeader.write (DbHeader.new 1) ⟨[], 0⟩).data

/-- The concrete dimension-1 store for claim C2: three pushed vectors whose
bit patterns are `1` (≈1.4e-45), `0x40000000` (2.0) and `0x40400000` (3.0). -/
def c2Pushed : List Nat :=
  match pushAll 1 31 hdr1 [[1], [1073741824], [1077936128]] with
  | .ok (_, d) => d
  | .error _ => []

/-- The C2 store after `remove(1)`. -/
def c2Removed : List Nat :=
  match VectorHandle.remove 1 31 c2Pushed 1 9 with
  | .ok (_, d) => d
  | .error _ => []

/-- The concrete dimension-1 store for claim C4: pushed bit patterns
`0x40000000` (2.0), `0x3F800000` (1.0), `0x40400000` (3.0). -/
def c4Pushed : List Nat :=
  match pushAll 1 31 hdr1 [[1073741824], [1065353216], [1077936128]] with
  | .ok (_, d) => d
  | .error _ => []

/-- The C4 store after `remove(1)`. -/
def c4Removed : List Nat :=
  match VectorHandle.remove 1 31 c4Pushed 1 9 with
  | .ok (_, d) => d
  | .error _ => []

/-- The concrete dimension-1 store for claim C5: three all-zero vectors. -/
def c5Pushed : List Nat :=
  match pushAll 1 31 hdr1 [[0], [0], [0]] with
  | .ok (_, d) => d
  | .error _ => []

/-- The C5 store after `remove(1)`. -/
def c5Removed : List Nat :=
  match VectorHandle.remove 1 31 c5Pushed 1 9 with
  | .ok (_, d) => d
  | .error _ => []

/-- The C5 store after the post-removal push. -/
def c5Repushed : List Nat :=
  match VectorHandle.push 1 31 c5Removed [0] with
  | .ok (_, d) => d
  | .error _ => []

/-- The dimension-1 store holding one vector whose only component is the
positive-infinity bit pattern (claim C1's counterexample). -/
def c1InfPushed : List Nat :=
  match VectorHandle.push 1 31 hdr1 [INF_BITS] with
  | .ok (_, d) => d
  | .error _ => []

/-- The vector list of the claim C6 scenario: 200 copies of `w`, the
distinguished all-zero vector, then 200 more copies of `w`. -/
def c6Vecs (w : List Nat) : List (List Nat) :=
  List.replicate 200 w ++ [List.replicate 512 0] ++ List.replicate 200 w

theorem encodeBE_length (n v : Nat) : (encodeBE n v).length = n := by
  induction n generalizing v with
  | zero => rfl
  | succ n ih => simp [encodeBE, ih]

theorem decodeBE_append_one (bs : List Nat) (b : Nat) :
    decodeBE (bs ++ [b]) = decodeBE bs * 256 + b := by
  simp [decodeBE, List.foldl_append]

theorem decodeBE_encodeBE (n v : Nat) (h : v < 256 ^ n) : decodeBE (encodeBE n v) = v := by
  induction n generalizing v with
  | zero =>
    simp only [pow_zero, Nat.lt_one_iff] at h
    subst h; rfl
  | succ n ih =>
    rw [encodeBE, decodeBE_append_one, ih (v / 256) ?_]
    · omega
    · rw [pow_succ] at h
      exact (Nat.div_lt_iff_lt_mul (by norm_num)).mpr h

theorem drop_append_len {α : Type} (l₁ l₂ : List α) (n : Nat) :
    (l₁ ++ l₂).drop (l₁.length + n) = l₂.drop n := by
  induction l₁ with
  | nil => simp
  | cons a t ih =>
    rw [List.cons_append, List.length_cons,
      show t.length + 1 + n = (t.length + n) + 1 from by omega, List.drop_succ_cons, ih]

theorem drop_append_of_len {α : Type} (l₁ l₂ : List α) (m n : Nat) (h : l₁.length = m) :
    (l₁ ++ l₂).drop (m + n) = l₂.drop n := by
  rw [← h]; exact drop_append_len l₁ l₂ n

theorem lt_pow_of_lt_pow32 {c : Nat} (h : c < 2 ^ 32) : c < 256 ^ 4 := by
  norm_num at h ⊢; exact h

theorem readBytes_of_drop (d bs rest : List Nat) (p n : Nat)
    (hd : d.drop p = bs ++ rest) (hn : bs.length = n) (hpos : 0 < n) :
    readBytes d p n = some bs := by
  have hlen : (d.drop p).length = bs.length + rest.length := by rw [hd]; simp
  rw [List.length_drop] at hlen
  have hple : p + n ≤ d.length := by
    rcases le_or_lt p d.length with hp | hp
    · omega
    · exfalso
      have hnil : d.drop p = [] := List.drop_eq_nil_of_le (le_of_lt hp)
      rw [hnil] at hd
      have := congrArg List.length hd
      simp at this
      omega
  rw [readBytes, if_pos hple, hd]
  subst hn
  rw [List.take_left]

theorem vectorWriteBytes_length (v : List Nat) : (vectorWriteBytes v).length = 4 * v.length := by
  induction v with
  | nil => rfl
  | cons c t ih =>
    simp only [vectorWriteBytes, List.map_cons, List.flatten_cons, List.length_append,
      encodeBE_length, List.length_cons] at ih ⊢
    omega

theorem encRecord_length (dim : Nat) (r : Nat × List Nat) (h : r.2.length = dim) :
    (encRecord r).length = unitSize dim := by
  simp only [encRecord, List.length_append, encodeBE_length, vectorWriteBytes_length, h, unitSize]
  omega

theorem flatten_enc_drop (u : Nat) (recs : List (Nat × List Nat)) (k : Nat)
    (h : ∀ r ∈ recs, (encRecord r).length = u) :
    ((recs.map encRecord).flatten).drop (k * u) = (((recs.drop k).map encRecord)).flatten := by
  induction k generalizing recs with
  | zero => simp
  | succ k ih =>
    cases recs with
    | nil => simp
    | cons r t =>
      have hr : (encRecord r).length = u := h r (by simp)
      rw [List.map_cons, List.flatten_cons, show (k + 1) * u = u + k * u from by ring,
        drop_append_of_len _ _ _ _ hr, ih t (fun s hs => h s (by simp [hs])),
        List.drop_succ_cons]

theorem flatten_enc_length (u : Nat) (recs : List (Nat × List Nat))
    (h : ∀ r ∈ recs, (encRecord r).length = u) :
    ((recs.map encRecord).flatten).length = recs.length * u := by
  induction recs with
  | nil => simp
  | cons r t ih =>
    have hr : (encRecord r).length = u := h r (by simp)
    simp only [List.map_cons, List.flatten_cons, List.length_append, hr,
      ih (fun s hs => h s (by simp [hs])), List.length_cons]
    ring

theorem fileOf_length (dim ds : Nat) (pre : List Nat) (recs : List (Nat × List Nat))
    (hpre : pre.length = ds) (hlens : ∀ r ∈ recs, r.2.length = dim) :
    (fileOf pre recs).length = ds + recs.length * unitSize dim := by
  rw [fileOf, List.length_append, hpre,
    flatten_enc_length (unitSize dim) recs (fun r hr => encRecord_length dim r (hlens r hr))]

theorem fileOf_nil (pre : List Nat) : fileOf pre [] = pre := by
  simp [fileOf]

theorem fileOf_concat (pre : List Nat) (recs : List (Nat × List Nat)) (r : Nat × List Nat) :
    fileOf pre (recs ++ [r]) = fileOf pre recs ++ encRecord r := by
  simp [fileOf, List.flatten_append]

theorem fileOf_drop (dim ds : Nat) (pre : List Nat) (recs : List (Nat × List Nat)) (k : Nat)
    (hpre : pre.length = ds) (hlens : ∀ r ∈ recs, r.2.length = dim) :
    (fileOf pre recs).drop (k * unitSize dim + ds) = ((recs.drop k).map encRecord).flatten := by
  rw [fileOf, show k * unitSize dim + ds = pre.length + k * unitSize dim from by omega,
    drop_append_len,
    flatten_enc_drop (unitSize dim) recs k (fun r hr => encRecord_length dim r (hlens r hr))]

theorem fileOf_drop_cons (dim ds : Nat) (pre : List Nat) (recs : List (Nat × List Nat))
    (r : Nat × List Nat) (rest : List (Nat × List Nat)) (k : Nat)
    (hpre : pre.length = ds) (hlens : ∀ r ∈ recs, r.2.length = dim)
    (hdrop : recs.drop k = r :: rest) :
    (fileOf pre recs).drop (k * unitSize dim + ds) =
      encodeBE 4 r.1 ++ (vectorWriteBytes r.2 ++ ((rest.map encRecord)).flatten) := by
  rw [fileOf_drop dim ds pre recs k hpre hlens, hdrop, List.map_cons, List.flatten_cons,
    encRecord, List.append_assoc]

theorem file_read_id (dim ds : Nat) (pre : List Nat) (recs : List (Nat × List Nat))
    (r : Nat × List Nat) (rest : List (Nat × List Nat)) (k : Nat)
    (hpre : pre.length = ds) (hlens : ∀ r ∈ recs, r.2.length = dim)
    (hdrop : recs.drop k = r :: rest) (hid : r.1 < 2 ^ 32) :
    readIdAt (fileOf pre recs) (k * unitSize dim + ds) = some r.1 := by
  rw [readIdAt,
    readBytes_of_drop _ _ _ _ _ (fileOf_drop_cons dim ds pre recs r rest k hpre hlens hdrop)
      (encodeBE_length 4 r.1) (by norm_num)]
  simp [decodeBE_encodeBE 4 r.1 (lt_pow_of_lt_pow32 hid)]

theorem vectorReadGo_ok (d : List Nat) (v rest : List Nat) (p : Nat)
    (hdrop : d.drop p = vectorWriteBytes v ++ rest)
    (hc : ∀ c ∈ v, c < 2 ^ 32) (hinf : INF_BITS ∉ v) :
    vectorReadGo d p v.length = .ok v := by
  induction v generalizing p rest with
  | nil => rfl
  | cons c t ih =>
    have h1 : d.drop p = encodeBE 4 c ++ (vectorWriteBytes t ++ rest) := by
      simpa [vectorWriteBytes, List.append_assoc] using hdrop
    have h2 : readBytes d p 4 = some (encodeBE 4 c) :=
      readBytes_of_drop _ _ _ _ _ h1 (encodeBE_length 4 c) (by norm_num)
    have h3 : decodeBE (encodeBE 4 c) = c :=
      decodeBE_encodeBE 4 c (lt_pow_of_lt_pow32 (hc c (by simp)))
    have h4 : d.drop (p + 4) = vectorWriteBytes t ++ rest := by
      have h5 := congrArg (List.drop 4) h1
      rw [List.drop_drop] at h5
      rw [h5]
      simpa using drop_append_of_len (encodeBE 4 c) (vectorWriteBytes t ++ rest) 4 0
        (encodeBE_length 4 c)
    have hcne : ¬(c = INF_BITS) := by
      intro hcontra
      exact hinf (by simp [hcontra])
    have hrec : vectorReadGo d (p + 4) t.length = .ok t :=
      ih _ _ h4 (fun x hx => hc x (by simp [hx])) (by
        intro hx; exact hinf (by simp [hx]))
    show vectorReadGo d p (t.length + 1) = .ok (c :: t)
    rw [vectorReadGo, h2]
    simp [h3, hcne, hrec]

theorem file_read_vec (dim ds : Nat) (pre : List Nat) (recs : List (Nat × List Nat))
    (r : Nat × List Nat) (rest : List (Nat × List Nat)) (k : Nat)
    (hpre : pre.length = ds) (hlens : ∀ r ∈ recs, r.2.length = dim)
    (hdrop : recs.drop k = r :: rest)
    (hc : ∀ c ∈ r.2, c < 2 ^ 32) (hinf : INF_BITS ∉ r.2) :
    vectorReadGo (fileOf pre recs) (k * unitSize dim + ds + 4) dim = .ok r.2 := by
  have h1 := fileOf_drop_cons dim ds pre recs r rest k hpre hlens hdrop
  have h2 : (fileOf pre recs).drop (k * unitSize dim + ds + 4) =
      vectorWriteBytes r.2 ++ (rest.map encRecord).flatten := by
    have h5 := congrArg (List.drop 4) h1
    rw [List.drop_drop] at h5
    rw [h5]
    simpa using drop_append_of_len (encodeBE 4 r.1)
      (vectorWriteBytes r.2 ++ (rest.map encRecord).flatten) 4 0 (encodeBE_length 4 r.1)
  have hmem : r ∈ recs := List.mem_of_mem_drop (by rw [hdrop]; simp)
  have hres := vectorReadGo_ok _ _ _ _ h2 hc hinf
  rw [hlens r hmem] at hres
  exact hres

theorem unitSize_pos (dim : Nat) : 4 ≤ unitSize dim := by
  simp [unitSize]

theorem storeCount_fileOf (dim ds : Nat) (pre : List Nat) (recs : List (Nat × List Nat))
    (hpre : pre.length = ds) (hlens : ∀ r ∈ recs, r.2.length = dim) :
    storeCount dim ds (fileOf pre recs) = recs.length := by
  have hu := unitSize_pos dim
  rw [storeCount, fileOf_length dim ds pre recs hpre hlens,
    show ds + recs.length * unitSize dim + 1 - ds = 1 + unitSize dim * recs.length from by
      rw [Nat.mul_comm]; omega,
    Nat.add_mul_div_left 1 recs.length (by omega), Nat.div_eq_of_lt (by omega)]
  omega

theorem writeBytes_at_end (d bs : List Nat) : writeBytes d d.length bs = d ++ bs := by
  simp [writeBytes, List.drop_eq_nil_of_le]

theorem seek_last_id_nil (dim ds : Nat) (pre : List Nat) (hpre : pre.length = ds) :
    VectorHandle.seek_last_id dim ds (fileOf pre []) = none := by
  have hu := unitSize_pos dim
  have hlen : (fileOf pre []).length = ds := by rw [fileOf_nil, hpre]
  rw [VectorHandle.seek_last_id]
  by_cases h : (fileOf pre []).length < unitSize dim
  · simp [h]
  · simp only [h, if_false]
    rw [if_pos (by omega)]

theorem seek_last_id_concat (dim ds : Nat) (pre : List Nat) (init : List (Nat × List Nat))
    (lst : Nat × List Nat) (hpre : pre.length = ds)
    (hlens : ∀ r ∈ init ++ [lst], r.2.length = dim) (hid : lst.1 < 2 ^ 32) :
    VectorHandle.seek_last_id dim ds (fileOf pre (init ++ [lst])) = some lst.1 := by
  have hu := unitSize_pos dim
  have hlen : (fileOf pre (init ++ [lst])).length =
      ds + init.length * unitSize dim + unitSize dim := by
    rw [fileOf_length dim ds pre (init ++ [lst]) hpre hlens]
    simp [List.length_append, Nat.add_mul, Nat.one_mul, Nat.add_assoc]
  rw [VectorHandle.seek_last_id]
  simp only [hlen]
  rw [if_neg (by omega), if_neg (by omega),
    show ds + init.length * unitSize dim + unitSize dim - unitSize dim =
      init.length * unitSize dim + ds from by omega]
  exact file_read_id dim ds pre (init ++ [lst]) lst [] init.length hpre hlens
    (by
      have h0 := drop_append_len init [lst] 0
      simpa only [Nat.add_zero, List.drop_zero] using h0) hid

theorem mem_concat_self (init : List (Nat × List Nat)) (lst : Nat × List Nat) :
    lst ∈ init ++ [lst] := by simp

theorem nextId_concat (init : List (Nat × List Nat)) (lst : Nat × List Nat) :
    nextId (init ++ [lst]) = lst.1 + 1 := by
  induction init with
  | nil => rfl
  | cons a t ih =>
    cases t with
    | nil => rfl
    | cons b t2 => simpa [nextId] using ih

theorem push_spec (dim ds : Nat) (pre : List Nat) (recs : List (Nat × List Nat))
    (v : List Nat) (hpre : pre.length = ds) (hlens : ∀ r ∈ recs, r.2.length = dim)
    (hv : v.length = dim) (hids : ∀ r ∈ recs, r.1 + 1 < 2 ^ 32) :
    VectorHandle.push dim ds (fileOf pre recs) v =
      .ok (nextId recs, fileOf pre (recs ++ [(nextId recs, v)])) := by
  rw [VectorHandle.push, if_neg (by simp [hv])]
  have hlast : (match VectorHandle.seek_last_id dim ds (fileOf pre recs) with
      | none => 0
      | some i => (i + 1) % 2 ^ 32) = nextId recs := by
    rcases List.eq_nil_or_concat recs with hnil | ⟨init, lst, hcat⟩
    · subst hnil
      rw [seek_last_id_nil dim ds pre hpre]
      rfl
    · subst hcat
      simp only [List.concat_eq_append] at hlens hids ⊢
      rw [seek_last_id_concat dim ds pre init lst hpre hlens
        (by have := hids lst (mem_concat_self init lst); omega), nextId_concat]
      exact Nat.mod_eq_of_lt (hids lst (mem_concat_self init lst))
  simp only [hlast]
  have hdata : ((Strm.write ⟨fileOf pre recs, (fileOf pre recs).length⟩
        (encodeBE 4 (nextId recs))).write (vectorWriteBytes v)).data =
      fileOf pre (recs ++ [(nextId recs, v)]) := by
    simp only [Strm.write]
    rw [writeBytes_at_end,
      show (fileOf pre recs).length + (encodeBE 4 (nextId recs)).length =
        (fileOf pre recs ++ encodeBE 4 (nextId recs)).length from by simp,
      writeBytes_at_end, fileOf_concat, encRecord, List.append_assoc]
  rw [hdata]

theorem lt_nextId (recs : List (Nat × List Nat))
    (hsort : recs.Pairwise (fun r s => r.1 < s.1)) :
    ∀ r ∈ recs, r.1 < nextId recs := by
  induction recs with
  | nil => simp
  | cons a t ih =>
    intro r hr
    cases t with
    | nil =>
      simp only [List.mem_singleton] at hr
      rw [hr]
      show a.1 < a.1 + 1
      omega
    | cons b t2 =>
      have hpair := List.pairwise_cons.mp hsort
      show r.1 < nextId (b :: t2)
      rcases List.mem_cons.mp hr with h | h
      · have hb : b.1 < nextId (b :: t2) := ih hpair.2 b (by simp)
        have hab : a.1 < b.1 := hpair.1 b (by simp)
        rw [h]
        omega
      · exact ih hpair.2 r h

theorem pushed_lens (dim : Nat) (recs : List (Nat × List Nat)) (nid : Nat) (v : List Nat)
    (hlens : ∀ r ∈ recs, r.2.length = dim) (hv : v.length = dim) :
    ∀ r ∈ recs ++ [(nid, v)], r.2.length = dim := by
  intro r hr
  rcases List.mem_append.mp hr with h | h
  · exact hlens r h
  · simp only [List.mem_singleton] at h
    rw [h]
    exact hv

theorem seek_item_pushed (dim ds : Nat) (pre : List Nat) (recs : List (Nat × List Nat))
    (v : List Nat) (hpre : pre.length = ds) (hlens : ∀ r ∈ recs, r.2.length = dim)
    (hv : v.length = dim) (hids : ∀ r ∈ recs, r.1 + 1 < 2 ^ 32)
    (hsort : recs.Pairwise (fun r s => r.1 < s.1)) (fuel : Nat) :
    seek_item dim ds (fileOf pre (recs ++ [(nextId recs, v)])) (nextId recs) (fuel + 1) =
      .found (recs.length * unitSize dim + ds) := by
  have hlens' := pushed_lens dim recs (nextId recs) v hlens hv
  have hcount : storeCount dim ds (fileOf pre (recs ++ [(nextId recs, v)])) =
      recs.length + 1 := by
    rw [storeCount_fileOf dim ds pre _ hpre hlens']
    simp
  have hnid32 : nextId recs < 2 ^ 32 := by
    rcases List.eq_nil_or_concat recs with hnil | ⟨init, lst, hcat⟩
    · rw [hnil]; norm_num [nextId]
    · subst hcat
      simp only [List.concat_eq_append] at hids ⊢
      rw [nextId_concat]
      exact hids lst (mem_concat_self init lst)
  have hntail : (recs ++ [(nextId recs, v)]).drop recs.length = [(nextId recs, v)] := by
    have h0 := drop_append_len recs [(nextId recs, v)] 0
    simpa only [Nat.add_zero, List.drop_zero] using h0
  have htail : readIdAt (fileOf pre (recs ++ [(nextId recs, v)]))
      (recs.length * unitSize dim + ds) = some (nextId recs) :=
    file_read_id dim ds pre _ (nextId recs, v) [] recs.length hpre hlens' hntail hnid32
  rw [seek_item]
  simp only [hcount, Nat.succ_ne_zero, if_false, Nat.add_sub_cancel]
  cases recs with
  | nil =>
    rw [seekItemGo]
    simp only [List.length_nil] at htail ⊢
    rw [htail]
    simp
  | cons r0 t =>
    have hhead : readIdAt (fileOf pre ((r0 :: t) ++ [(nextId (r0 :: t), v)]))
        (0 * unitSize dim + ds) = some r0.1 :=
      file_read_id dim ds pre _ r0 (t ++ [(nextId (r0 :: t), v)]) 0 hpre hlens'
        (by simp) (by have := hids r0 (by simp); omega)
    have hne : ¬(r0.1 = nextId (r0 :: t)) := by
      have := lt_nextId (r0 :: t) hsort r0 (by simp)
      omega
    simp only [List.length_cons] at htail
    rw [seekItemGo, hhead]
    simp only [hne, if_false, List.length_cons,
      show (0 : Nat) ≠ t.length + 1 from by omega]
    rw [htail]
    simp

theorem get_pushed (dim ds : Nat) (pre : List Nat) (recs : List (Nat × List Nat))
    (v : List Nat) (hpre : pre.length = ds) (hlens : ∀ r ∈ recs, r.2.length = dim)
    (hv : v.length = dim) (hids : ∀ r ∈ recs, r.1 + 1 < 2 ^ 32)
    (hsort : recs.Pairwise (fun r s => r.1 < s.1))
    (hvc : ∀ c ∈ v, c < 2 ^ 32) (hvinf : INF_BITS ∉ v) (fuel : Nat) :
    VectorHandle.get dim ds (fileOf pre (recs ++ [(nextId recs, v)])) (nextId recs) (fuel + 1) =
      .ok (some v) := by
  have hlens' := pushed_lens dim recs (nextId recs) v hlens hv
  have hntail : (recs ++ [(nextId recs, v)]).drop recs.length = [(nextId recs, v)] := by
    have h0 := drop_append_len recs [(nextId recs, v)] 0
    simpa only [Nat.add_zero, List.drop_zero] using h0
  have hseek := seek_item_pushed dim ds pre recs v hpre hlens hv hids hsort fuel
  have hvec := file_read_vec dim ds pre (recs ++ [(nextId recs, v)]) (nextId recs, v) []
    recs.length hpre hlens' hntail hvc hvinf
  rw [VectorHandle.get, hseek]
  simp [hvec]

theorem enumRecs_length (k : Nat) (l : List (List Nat)) : (enumRecs k l).length = l.length := by
  induction l generalizing k with
  | nil => rfl
  | cons v t ih => simp [enumRecs, ih]

theorem enumRecs_append (k : Nat) (l₁ l₂ : List (List Nat)) :
    enumRecs k (l₁ ++ l₂) = enumRecs k l₁ ++ enumRecs (k + l₁.length) l₂ := by
  induction l₁ generalizing k with
  | nil => simp [enumRecs]
  | cons v t ih =>
    show (k, v) :: enumRecs (k + 1) (t ++ l₂) =
      ((k, v) :: enumRecs (k + 1) t) ++ enumRecs (k + (v :: t).length) l₂
    rw [List.cons_append, List.length_cons, ih (k + 1),
      show k + (t.length + 1) = k + 1 + t.length from by omega]

theorem enumRecs_drop (i k : Nat) (l : List (List Nat)) :
    (enumRecs k l).drop i = enumRecs (k + i) (l.drop i) := by
  induction i generalizing k l with
  | zero => simp
  | succ i ih =>
    cases l with
    | nil => simp [enumRecs]
    | cons v t =>
      rw [enumRecs, List.drop_succ_cons, List.drop_succ_cons, ih (k + 1) t,
        show k + 1 + i = k + (i + 1) from by omega]

theorem enumRecs_mem_dim (dim k : Nat) (l : List (List Nat)) (hl : ∀ v ∈ l, v.length = dim) :
    ∀ r ∈ enumRecs k l, r.2.length = dim := by
  induction l generalizing k with
  | nil => simp [enumRecs]
  | cons v t ih =>
    intro r hr
    rw [enumRecs] at hr
    rcases List.mem_cons.mp hr with h | h
    · rw [h]; exact hl v (by simp)
    · exact ih (k + 1) (fun x hx => hl x (by simp [hx])) r h

theorem enumRecs_mem_id (k : Nat) (l : List (List Nat)) :
    ∀ r ∈ enumRecs k l, k ≤ r.1 ∧ r.1 < k + l.length := by
  induction l generalizing k with
  | nil => simp [enumRecs]
  | cons v t ih =>
    intro r hr
    rw [enumRecs] at hr
    rcases List.mem_cons.mp hr with h | h
    · rw [h]
      refine ⟨le_refl k, ?_⟩
      simp
    · have h2 := ih (k + 1) r h
      simp only [List.length_cons]
      omega

theorem nextId_enumRecs (k : Nat) (l : List (List Nat)) :
    nextId (enumRecs k l) = if l.length = 0 then 0 else k + l.length := by
  induction l generalizing k with
  | nil => rfl
  | cons v t ih =>
    cases t with
    | nil => simp [enumRecs, nextId]
    | cons w t2 =>
      show nextId (enumRecs (k + 1) (w :: t2)) = _
      rw [ih (k + 1)]
      simp only [List.length_cons, Nat.succ_ne_zero, if_false]
      omega

theorem enumRecs_sorted (k : Nat) (l : List (List Nat)) :
    (enumRecs k l).Pairwise (fun r s => r.1 < s.1) := by
  induction l generalizing k with
  | nil => exact List.Pairwise.nil
  | cons v t ih =>
    rw [enumRecs]
    refine List.pairwise_cons.mpr ⟨?_, ih (k + 1)⟩
    intro s hs
    have h2 := (enumRecs_mem_id (k + 1) t s hs).1
    show k < s.1
    omega

theorem pushAll_enum (dim ds : Nat) (pre : List Nat) (hpre : pre.length = ds) :
    ∀ (vs done : List (List Nat)),
      (∀ v ∈ done, v.length = dim) → (∀ v ∈ vs, v.length = dim) →
      done.length + vs.length < 2 ^ 32 →
      pushAll dim ds (fileOf pre (enumRecs 0 done)) vs =
        .ok (List.range' done.length vs.length, fileOf pre (enumRecs 0 (done ++ vs))) := by
  intro vs
  induction vs with
  | nil =>
    intro done hd hv hb
    simp [pushAll, List.range']
  | cons v t ih =>
    intro done hd hv hb
    have hlensE : ∀ r ∈ enumRecs 0 done, r.2.length = dim := enumRecs_mem_dim dim 0 done hd
    have hidsE : ∀ r ∈ enumRecs 0 done, r.1 + 1 < 2 ^ 32 := by
      intro r hr
      have h2 := (enumRecs_mem_id 0 done r hr).2
      simp only [List.length_cons] at hb
      omega
    have hnext : nextId (enumRecs 0 done) = done.length := by
      rw [nextId_enumRecs]
      by_cases h : done.length = 0
      · simp [h]
      · simp [h]
    have hpush := push_spec dim ds pre (enumRecs 0 done) v hpre hlensE (hv v (by simp)) hidsE
    rw [hnext] at hpush
    have hcat : enumRecs 0 done ++ [(done.length, v)] = enumRecs 0 (done ++ [v]) := by
      rw [enumRecs_append]
      simp [enumRecs]
    rw [hcat] at hpush
    have hih := ih (done ++ [v])
      (by
        intro x hx
        rcases List.mem_append.mp hx with h | h
        · exact hd x h
        · simp only [List.mem_singleton] at h
          rw [h]
          exact hv v (by simp))
      (fun x hx => hv x (by simp [hx]))
      (by
        have hlen2 : (done ++ [v]).length = done.length + 1 := by simp
        have hlen3 : (v :: t).length = t.length + 1 := by simp
        rw [hlen3] at hb
        rw [hlen2]
        omega)
    simp only [pushAll, hpush, hih]
    simp [List.range'_succ, List.append_assoc]

theorem empty_store_count (dim ds : Nat) (pre : List Nat) (hpre : pre.length = ds) :
    storeCount dim ds pre = 0 := by
  have hu := unitSize_pos dim
  rw [storeCount, hpre, show ds + 1 - ds = 1 from by omega]
  exact Nat.div_eq_of_lt (by omega)

theorem empty_store_seek (dim ds : Nat) (pre : List Nat) (hpre : pre.length = ds)
    (id fuel : Nat) : seek_item dim ds pre id (fuel + 1) = .ioError := by
  have hread : readIdAt pre (0 * unitSize dim + ds) = none := by
    rw [readIdAt, readBytes, if_neg (by rw [hpre]; omega)]
    rfl
  rw [seek_item]
  simp only [empty_store_count dim ds pre hpre, if_pos]
  rw [seekItemGo, hread]

theorem c6_vec_dims (w : List Nat) (hw : w.length = 512) :
    ∀ v ∈ c6Vecs w, v.length = 512 := by
  intro v hv
  simp only [c6Vecs, List.mem_append, List.mem_replicate, List.mem_singleton] at hv
  rcases hv with (⟨_, h⟩ | h) | ⟨_, h⟩ <;> rw [h] <;>
    simp only [List.length_replicate, hw]

theorem c6_vecs_cons (w : List Nat) :
    c6Vecs w = w :: (List.replicate 199 w ++ [List.replicate 512 0] ++
      List.replicate 200 w) := by
  rw [c6Vecs, show (200 : Nat) = 199 + 1 from rfl, List.replicate_succ]
  simp only [List.cons_append, List.append_assoc]

theorem c6_drop_0 (w : List Nat) :
    (enumRecs 0 (c6Vecs w)).drop 0 =
      (0, w) :: enumRecs 1 (List.replicate 199 w ++ [List.replicate 512 0] ++
        List.replicate 200 w) := by
  rw [List.drop_zero, c6_vecs_cons]
  rfl

theorem c6_drop_200 (w : List Nat) :
    (enumRecs 0 (c6Vecs w)).drop 200 =
      (200, List.replicate 512 0) :: enumRecs 201 (List.replicate 200 w) := by
  rw [enumRecs_drop,
    show (c6Vecs w).drop 200 = List.replicate 512 0 :: List.replicate 200 w from by
      rw [c6Vecs, List.append_assoc]
      have h0 := drop_append_of_len (List.replicate 200 w)
        ([List.replicate 512 0] ++ List.replicate 200 w) 200 0
        (by rw [List.length_replicate])
      simpa only [Nat.add_zero, List.drop_zero, List.singleton_append] using h0]
  rfl

theorem c6_drop_400 (w : List Nat) :
    (enumRecs 0 (c6Vecs w)).drop 400 = [(400, w)] := by
  rw [enumRecs_drop,
    show (c6Vecs w).drop 400 = [w] from by
      rw [c6Vecs, List.append_assoc, show (400 : Nat) = 200 + 200 from rfl,
        drop_append_of_len (List.replicate 200 w)
          ([List.replicate 512 0] ++ List.replicate 200 w) 200 200
          (by rw [List.length_replicate]),
        List.singleton_append, show (200 : Nat) = 199 + 1 from rfl,
        List.drop_succ_cons, List.drop_replicate,
        show (199 + 1 : Nat) - 199 = 1 from rfl, List.replicate_one]]
  rfl

theorem c6_seek (ds : Nat) (pre w : List Nat) (hpre : pre.length = ds)
    (hw : w.length = 512) (fuel : Nat) :
    seek_item 512 ds (fileOf pre (enumRecs 0 (c6Vecs w))) 200 (fuel + 2) =
      .found (200 * unitSize 512 + ds) := by
  have hlensE : ∀ r ∈ enumRecs 0 (c6Vecs w), r.2.length = 512 :=
    enumRecs_mem_dim 512 0 (c6Vecs w) (c6_vec_dims w hw)
  have hcount : storeCount 512 ds (fileOf pre (enumRecs 0 (c6Vecs w))) = 401 := by
    rw [storeCount_fileOf 512 ds pre _ hpre hlensE, enumRecs_length]
    simp [c6Vecs]
  have hid0 : readIdAt (fileOf pre (enumRecs 0 (c6Vecs w))) (0 * unitSize 512 + ds) =
      some 0 := by
    have h0 := file_read_id 512 ds pre (enumRecs 0 (c6Vecs w)) (0, w) _ 0 hpre hlensE
      (c6_drop_0 w) (by norm_num)
    simpa using h0
  have hid400 : readIdAt (fileOf pre (enumRecs 0 (c6Vecs w))) (400 * unitSize 512 + ds) =
      some 400 := by
    have h0 := file_read_id 512 ds pre (enumRecs 0 (c6Vecs w)) (400, w) _ 400 hpre hlensE
      (c6_drop_400 w) (by norm_num)
    simpa using h0
  have hid200 : readIdAt (fileOf pre (enumRecs 0 (c6Vecs w))) (200 * unitSize 512 + ds) =
      some 200 := by
    have h0 := file_read_id 512 ds pre (enumRecs 0 (c6Vecs w)) (200, List.replicate 512 0) _
      200 hpre hlensE (c6_drop_200 w) (by norm_num)
    simpa using h0
  rw [seek_item]
  simp only [hcount]
  rw [if_neg (by norm_num), show (401 : Nat) - 1 = 400 from by norm_num,
    show fuel + 2 = (fuel + 1) + 1 from rfl, seekItemGo]
  simp only [hid0]
  norm_num
  simp only [hid400]
  norm_num
  rw [seekItemGo]
  simp only [hid200]
  norm_num

theorem c6_get (ds : Nat) (pre w : List Nat) (hpre : pre.length = ds)
    (hw : w.length = 512) (fuel : Nat) :
    VectorHandle.get 512 ds (fileOf pre (enumRecs 0 (c6Vecs w))) 200 (fuel + 2) =
      .ok (some (List.replicate 512 0)) := by
  have hlensE : ∀ r ∈ enumRecs 0 (c6Vecs w), r.2.length = 512 :=
    enumRecs_mem_dim 512 0 (c6Vecs w) (c6_vec_dims w hw)
  have hvec : vectorReadGo (fileOf pre (enumRecs 0 (c6Vecs w)))
      (200 * unitSize 512 + ds + 4) 512 = .ok (List.replicate 512 0) := by
    have h0 := file_read_vec 512 ds pre (enumRecs 0 (c6Vecs w)) (200, List.replicate 512 0) _
      200 hpre hlensE (c6_drop_200 w) (by simp) (by simp [List.mem_replicate, INF_BITS])
    simpa using h0
  rw [VectorHandle.get, c6_seek ds pre w hpre hw fuel]
  simp only [hvec]

/-- Claim C1, counterexample: on a fresh dimension-1 store, pushing the vector
whose single component is the positive-infinity bit pattern succeeds with id
0, but `get(0)` then fails with an I/O error (the infinity-as-EOF sentinel of
`vio::vector::read`) instead of returning the vector — so
`get(push(v)) == v` does not hold for every vector of the configured
dimensionality. -/
theorem claim1_counterexample :
    VectorHandle.push 1 31 hdr1 [INF_BITS] = .ok (0, c1InfPushed) ∧
    VectorHandle.get 1 31 c1InfPushed 0 9 = .error .io ∧
    ¬ VectorHandle.get 1 31 c1InfPushed 0 9 = .ok (some [INF_BITS]) := by decide

/-- Claim C1 (amended): for every well-formed store (strictly ascending
still-incrementable `u32` ids, fixed-width records) and every vector `v` of
the configured dimensionality **none of whose components is the
positive-infinity bit pattern**, `push(v)` appends a record with id
`last_id + 1` (0 on an empty store) and `get` of that id returns exactly
`v`. -/
theorem claim1_push_get_roundtrip (dim ds : Nat) (pre : List Nat)
    (recs : List (Nat × List Nat)) (hwf : WFStore dim ds pre recs)
    (v : List Nat) (hv : v.length = dim) (hvc : ∀ c ∈ v, c < 2 ^ 32)
    (hvinf : INF_BITS ∉ v) (fuel : Nat) :
    VectorHandle.push dim ds (fileOf pre recs) v =
      .ok (nextId recs, fileOf pre (recs ++ [(nextId recs, v)])) ∧
    VectorHandle.get dim ds (fileOf pre (recs ++ [(nextId recs, v)]))
      (nextId recs) (fuel + 1) = .ok (some v) :=
  ⟨push_spec dim ds pre recs v hwf.pre_len hwf.rec_dim hv hwf.id_lt,
    get_pushed dim ds pre recs v hwf.pre_len hwf.rec_dim hv hwf.id_lt hwf.sorted
      hvc hvinf fuel⟩

/-- Claim C1 witness: the round-trip theorem applied to a fresh dimension-1
store and the vector `[5]`. -/
theorem claim1_witness :
    VectorHandle.push 1 31 (fileOf hdr1 []) [5] =
      .ok (nextId [], fileOf hdr1 ([] ++ [(nextId [], [5])])) ∧
    VectorHandle.get 1 31 (fileOf hdr1 ([] ++ [(nextId [], [5])])) (nextId [])
      (0 + 1) = .ok (some [5]) :=
  claim1_push_get_roundtrip 1 31 hdr1 []
    ⟨by decide, by simp, by simp, by simp, List.Pairwise.nil⟩
    [5] (by decide) (by decide) (by decide) 0

/-- Claim C2: removal is broken.  On the dimension-1 store built by pushing
the vectors with bit patterns `1`, `0x40000000`, `0x40400000` (ids 0, 1, 2),
`remove(1)` does return the stored vector `[0x40000000]`, but the botched
byte shift (`seek_item`'s offset minus 4, and `cut_and_paste_backward`
writing each chunk at the post-read cursor minus `offset`) leaves the file
with id 1 still present: `get(1)` afterwards returns `some [1]` instead of
"not found". -/
theorem claim2_remove_leaves_id_retrievable :
    pushAll 1 31 hdr1 [[1], [1073741824], [1077936128]] = .ok ([0, 1, 2], c2Pushed) ∧
    VectorHandle.remove 1 31 c2Pushed 1 9 = .ok (some [1073741824], c2Removed) ∧
    VectorHandle.get 1 31 c2Removed 1 9 = .ok (some [1]) ∧
    ¬ VectorHandle.get 1 31 c2Removed 1 9 = .ok none := by decide

/-- Claim C3: the byte-range shifter violates its contract.  On the stream
`[1..8]` positioned at 4, `move_content(4, -2, 16)` must make the bytes
`[5,6,7,8]` (at `[4,8)`) appear at `[2,6)`, yielding `[1,2,5,6,7,8,7,8]`;
instead the backward shifter writes the chunk at the post-read position
minus the offset, producing `[1,2,3,4,5,6,5,6,7,8]` (the chunk lands at
`[6,10)`). -/
theorem claim3_move_content_wrong_destination :
    moveContent ⟨[1, 2, 3, 4, 5, 6, 7, 8], 4⟩ 4 (-2) 16 9 =
      .ok ⟨[1, 2, 3, 4, 5, 6, 5, 6, 7, 8], 10⟩ ∧
    [1, 2, 3, 4, 5, 6, 5, 6, 7, 8] ≠ [1, 2, 5, 6, 7, 8, 7, 8] := by decide

/-- Claim C4: the ordering invariant is broken by `remove`.  Pushing the
vectors with bit patterns `0x40000000` (2.0), `0x3F800000` (1.0),
`0x40400000` (3.0) onto a fresh dimension-1 store and then removing id 1
leaves the record ids `[0, 0x40000000, 0x3F800000]` in file order, which is
not strictly ascending (the botched compaction shifts vector bytes into id
positions). -/
theorem claim4_ids_not_ascending_after_remove :
    pushAll 1 31 hdr1 [[1073741824], [1065353216], [1077936128]] =
      .ok ([0, 1, 2], c4Pushed) ∧
    VectorHandle.remove 1 31 c4Pushed 1 9 = .ok (some [1065353216], c4Removed) ∧
    idsInFileOrder 1 31 c4Removed = [0, 1073741824, 1065353216] ∧
    ascendingB (idsInFileOrder 1 31 c4Removed) = false := by decide

/-- Claim C5: ids are reused after a removal.  Pushing three all-zero
vectors (ids 0, 1, 2) onto a fresh dimension-1 store, removing id 1, and
pushing again assigns id 1 a second time: the corrupted compaction leaves
the bytes of an all-zero vector where `seek_last_id` reads the last record's
id, so the next id is computed as `0 + 1`. -/
theorem claim5_id_reused_after_removal :
    pushAll 1 31 hdr1 [[0], [0], [0]] = .ok ([0, 1, 2], c5Pushed) ∧
    VectorHandle.remove 1 31 c5Pushed 1 9 = .ok (some [0], c5Removed) ∧
    VectorHandle.push 1 31 c5Removed [0] = .ok (1, c5Repushed) := by decide

/-- Claim C6: the mid-file lookup scenario.  On a dimension-512 database,
pushing 200 copies of any 512-component vector `w`, then the all-zero
vector, then 200 more copies of `w` assigns the contiguous ids 0..400, and
`get(200)` — the value-guided binary search followed by the record decode —
terminates (two search iterations) and returns the all-zero vector. -/
theorem claim6_midfile_scenario (ds : Nat) (pre w : List Nat)
    (hpre : pre.length = ds) (hw : w.length = 512)
    (_hwc : ∀ c ∈ w, c < 2 ^ 32) (fuel : Nat) :
    pushAll 512 ds pre (c6Vecs w) =
      .ok (List.range 401, fileOf pre (enumRecs 0 (c6Vecs w))) ∧
    VectorHandle.get 512 ds (fileOf pre (enumRecs 0 (c6Vecs w))) 200 (fuel + 2) =
      .ok (some (List.replicate 512 0)) := by
  constructor
  · have h0 := pushAll_enum 512 ds pre hpre (c6Vecs w) []
      (by simp) (c6_vec_dims w hw)
      (by simp only [List.length_nil, List.length_append, List.length_replicate,
        List.length_singleton, c6Vecs]; norm_num)
    simp only [enumRecs, fileOf_nil, List.nil_append, List.length_nil,
      show (c6Vecs w).length = 401 from by
        simp only [c6Vecs, List.length_append, List.length_replicate,
          List.length_singleton]] at h0
    rw [List.range_eq_range']
    exact h0
  · exact c6_get ds pre w hpre hw fuel

/-- Claim C6 witness: the scenario theorem applied to the actual
`Database::new`-style 31-byte prefix and `w` the vector of 512 copies of
bit pattern `0x3F800000` (1.0). -/
theorem claim6_witness :
    pushAll 512 31 (List.replicate 31 0) (c6Vecs (List.replicate 512 1065353216)) =
      .ok (List.range 401, fileOf (List.replicate 31 0)
        (enumRecs 0 (c6Vecs (List.replicate 512 1065353216)))) ∧
    VectorHandle.get 512 31 (fileOf (List.replicate 31 0)
      (enumRecs 0 (c6Vecs (List.replicate 512 1065353216)))) 200 (0 + 2) =
      .ok (some (List.replicate 512 0)) :=
  claim6_midfile_scenario 31 (List.replicate 31 0) (List.replicate 512 1065353216)
    (by simp) (by simp)
    (by simp only [List.forall_mem_replicate]; norm_num) 0

/-- Claim C7: the header does not round-trip.  `DbHeader::write` formats the
version with `write!("{}", version)` — ASCII decimal text — while `read`
uses `read_u8`, so writing the fresh header `(version 1, data_section 31,
dim_size 512)` and reading it back yields version 49 (the ASCII code of the
digit `'1'`), not 1; `data_section` and `dim_size` survive only because a
one-digit version happens to occupy exactly one byte. -/
theorem claim7_header_version_mismatch :
    dbheaderRead ⟨(DbHeader.write (DbHeader.new 512) ⟨[], 0⟩).data, 0⟩ =
      .ok (⟨49, 512, 31⟩, ⟨(DbHeader.write (DbHeader.new 512) ⟨[], 0⟩).data, 31⟩) ∧
    (DbHeader.new 512).version = 1 ∧ (49 : Nat) ≠ 1 := by decide

/-- Claim C8: `from_adj_list` sizes the graph to the maximum referenced id,
not the maximum plus one.  For the single-edge list `[(0, 1, 0x3F800000)]`
the resulting graph has `len = 1` (claim says 2), its only row holds the
no-edge sentinel — the edge was silently dropped — and querying the edge's
distance fails with the out-of-bounds error. -/
theorem claim8_from_adj_list_undersized :
    NdGraph.from_adj_list [(0, 1, 1065353216)] = ⟨1, 1, [[INF_BITS]]⟩ ∧
    (NdGraph.from_adj_list [(0, 1, 1065353216)]).get_vertice 0 1 = .exceedBoundary := by
  decide

/-- Claim C9: `push_many` (grow) breaks the triangular-storage invariant.
Growing a fresh graph by one node appends a row with 0 cells instead of 1
(`(0..row)` instead of `(0..=row)`), so the resulting graph is
`⟨len 1, capacity 1, [[]]⟩` and `connect(0, 0, d)` — both ids below `len` —
panics on the row index instead of succeeding. -/
theorem claim9_grow_breaks_triangular :
    (NdGraph.new.push_many 1).1 = ⟨1, 1, [[]]⟩ ∧
    (NdGraph.new.push_many 1).1.connect 0 0 1065353216 = .panicked := by decide

/-- Claim C10, counterexample: on a freshly created dimension-1 store with
zero records, `seek_item`, `get` and `remove` all fail with an I/O error —
`count() - 1` wraps to `2^64 - 1` and the id read at the data section hits
end of file — instead of returning "not found". -/
theorem claim10_counterexample :
    seek_item 1 31 hdr1 0 9 = .ioError ∧
    VectorHandle.get 1 31 hdr1 0 9 = .error .io ∧
    ¬ VectorHandle.get 1 31 hdr1 0 9 = .ok none ∧
    VectorHandle.remove 1 31 hdr1 0 9 = .error .io ∧
    ¬ VectorHandle.remove 1 31 hdr1 0 9 = .ok (none, hdr1) := by decide

/-- Claim C10 (amended): on any store whose file is exactly the `ds`-byte
prefix (zero records), `seek_item`, `get` and `remove` fail with an I/O
error for every id: the `u64` computation `count() - 1` wraps (a debug
build panics on the underflow) and the subsequent id read fails at end of
file; none of them returns "not found". -/
theorem claim10_empty_store_errors (dim ds : Nat) (pre : List Nat)
    (hpre : pre.length = ds) (id fuel : Nat) :
    seek_item dim ds pre id (fuel + 1) = .ioError ∧
    VectorHandle.get dim ds pre id (fuel + 1) = .error .io ∧
    VectorHandle.remove dim ds pre id (fuel + 1) = .error .io := by
  have hseek := empty_store_seek dim ds pre hpre id fuel
  refine ⟨hseek, ?_, ?_⟩
  · rw [VectorHandle.get, hseek]
  · rw [VectorHandle.remove, hseek]

/-- Claim C10 witness: the empty-store theorem applied to a fresh
dimension-1 store. -/
theorem claim10_witness :
    seek_item 1 31 hdr1 0 (0 + 1) = .ioError ∧
    VectorHandle.get 1 31 hdr1 0 (0 + 1) = .error .io ∧
    VectorHandle.remove 1 31 hdr1 0 (0 + 1) = .error .io :=
  claim10_empty_store_errors 1 31 hdr1 (by decide) 0 0

end Vectoria
